import Mathlib

/-!
Shallow embedding of the stochastic-process generators of the
StochasticSimulation repository (`Continuous-timeStochasticProcesses/
PoissonProcess.cpp` and its two companion translation units containing
`simMarkovChain` and `simRandomWalk`).

The pseudorandom engine (`std::mt19937`) is modelled at the distribution
level: an `Rng` is the list of successive distribution draws the engine will
produce, consumed front first.  Each call of a `<random>` distribution on the
engine consumes exactly one entry of the list and that entry is interpreted as
the value the distribution returned:

* `std::exponential_distribution(lambda)` — the entry is the sampled
  interarrival gap; for `lambda > 0` these samples are strictly positive with
  probability one, which theorems take as a hypothesis on the stream;
* `std::uniform_real_distribution(0,1)` — the entry is the uniform sample,
  lying in `[0, 1)`;
* `std::bernoulli_distribution(p)` — the entry is the underlying uniform
  sample `u ∈ [0, 1)`; the Bernoulli outcome is `u < p`;
* `std::discrete_distribution(w)` — the entry is the underlying uniform
  sample `u ∈ [0, 1)`; the sampled index is the inverse-CDF transform of the
  unnormalised target `u * w.sum` over the weight list `w` (`catPick` below).

Real numbers are embedded as `ℚ` so that every definition is executable.
When a loop needs one more draw than the finite `Rng` list holds the embedded
function returns `none`; every theorem speaks about runs in which the engine
provided enough draws (a real `std::mt19937` never runs dry).
-/

namespace StochasticSim

/-- The engine state: the list of pending distribution-level draws. -/
abbrev Rng := List ℚ

/-- Loop body of `simulateHomogeneousPoisson` (PoissonProcess.cpp, lines
30–38): repeatedly draw an exponential interarrival gap `dt`, accumulate it
into the clock `t`, stop (discarding the overshooting clock value) as soon as
`t` exceeds the horizon `T`, and otherwise append `t` to the arrival list.
Returns the arrivals together with the engine state left behind. -/
def homPoissonLoop (T : ℚ) : ℚ → Rng → Option (List ℚ × Rng)
  | _, [] => none
  | t, dt :: rest =>
    if T < t + dt then some ([], rest)
    else (homPoissonLoop T (t + dt) rest).map fun ar => ((t + dt) :: ar.1, ar.2)

/-- `simulateHomogeneousPoisson(lambda, T, rng)` (PoissonProcess.cpp, lines
24–40).  The rate `lam` parametrises `std::exponential_distribution`; in this
distribution-level model the gap samples are read off the engine stream, so
`lam` does not appear in the recursion itself. -/
def simulateHomogeneousPoisson (lam T : ℚ) (rng : Rng) : Option (List ℚ × Rng) :=
  homPoissonLoop T 0 rng

theorem homPoissonLoop_spec (T : ℚ) (rng : Rng) :
    ∀ (t : ℚ) (arr : List ℚ) (rng' : Rng),
      (∀ u ∈ rng, 0 < u) →
      homPoissonLoop T t rng = some (arr, rng') →
      (∀ x ∈ arr, t < x ∧ x ≤ T) ∧ List.Pairwise (fun a b => a < b) arr := by
  induction rng with
  | nil =>
    intro t arr rng' _ h
    simp [homPoissonLoop] at h
  | cons dt rest ih =>
    intro t arr rng' hpos h
    have hdt : 0 < dt := hpos dt (List.mem_cons_self dt rest)
    have hpos' : ∀ u ∈ rest, 0 < u := fun u hu => hpos u (List.mem_cons_of_mem dt hu)
    rw [homPoissonLoop] at h
    by_cases hT : T < t + dt
    · rw [if_pos hT] at h
      have harr : arr = [] := by
        have := (Option.some.injEq _ _).mp h
        exact (Prod.mk.injEq _ _ _ _).mp this |>.1.symm
      subst harr
      exact ⟨fun x hx => absurd hx (List.not_mem_nil x), List.Pairwise.nil⟩
    · rw [if_neg hT] at h
      rcases Option.map_eq_some'.mp h with ⟨⟨arr₀, rng₀⟩, hrec, heq⟩
      have harr : arr = (t + dt) :: arr₀ := by
        have := (Prod.mk.injEq _ _ _ _).mp heq
        exact this.1.symm
      subst harr
      obtain ⟨hmem, hpair⟩ := ih (t + dt) arr₀ rng₀ hpos' hrec
      constructor
      · intro x hx
        rcases List.mem_cons.mp hx with hx | hx
        · subst hx
          exact ⟨lt_add_of_pos_right t hdt, le_of_not_lt hT⟩
        · obtain ⟨h₁, h₂⟩ := hmem x hx
          exact ⟨lt_trans (lt_add_of_pos_right t hdt) h₁, h₂⟩
      · exact List.Pairwise.cons (fun x hx => (hmem x hx).1) hpair

/-- C1: for every rate > 0 and horizon ≥ 0, every arrival sequence returned by
`simulateHomogeneousPoisson` is strictly increasing (pairwise `<` in order),
every element is ≤ the horizon, and the sequence is empty when the horizon is
0.  The stream hypothesis says the exponential gap samples are strictly
positive, which holds with probability one when the rate is positive. -/
theorem simulateHomogeneousPoisson_increasing_le_horizon
    (lam T : ℚ) (rng : Rng) (arr : List ℚ) (rng' : Rng)
    (hlam : 0 < lam) (hT : 0 ≤ T) (hpos : ∀ u ∈ rng, 0 < u)
    (h : simulateHomogeneousPoisson lam T rng = some (arr, rng')) :
    List.Pairwise (fun a b => a < b) arr ∧ (∀ x ∈ arr, x ≤ T) ∧
      (T = 0 → arr = []) := by
  obtain ⟨hmem, hpair⟩ := homPoissonLoop_spec T rng 0 arr rng' hpos h
  refine ⟨hpair, fun x hx => (hmem x hx).2, fun hT0 => ?_⟩
  subst hT0
  cases arr with
  | nil => rfl
  | cons a l =>
    obtain ⟨h₁, h₂⟩ := hmem a (List.mem_cons_self a l)
    exact absurd (lt_of_lt_of_le h₁ h₂) (lt_irrefl 0)

/-- Witness for C1 at rate 1, horizon 1, gap stream `[1/2, 1/2, 1/2]`:
the run returns the arrivals `[1/2, 1]` and the hypotheses hold. -/
theorem simulateHomogeneousPoisson_increasing_le_horizon_w :
    ((0:ℚ) < 1 ∧ (0:ℚ) ≤ 1 ∧ (∀ u ∈ [(1:ℚ)/2, 1/2, 1/2], 0 < u) ∧
      simulateHomogeneousPoisson 1 1 [1/2, 1/2, 1/2] = some ([1/2, 1], [])) ∧
    (List.Pairwise (fun a b => a < b) [(1:ℚ)/2, 1] ∧
      (∀ x ∈ [(1:ℚ)/2, 1], x ≤ 1) ∧ ((1:ℚ) = 0 → [(1:ℚ)/2, 1] = [])) :=
  ⟨⟨by norm_num, by norm_num, by norm_num,
      by norm_num [simulateHomogeneousPoisson, homPoissonLoop]⟩,
    simulateHomogeneousPoisson_increasing_le_horizon 1 1 [1/2, 1/2, 1/2]
      [1/2, 1] [] (by norm_num) (by norm_num) (by norm_num)
      (by norm_num [simulateHomogeneousPoisson, homPoissonLoop])⟩

/-- Loop body of `simulateNonHomogeneousPoisson` (PoissonProcess.cpp, lines
56–66): walk the candidate arrivals in order; for each candidate `t` draw one
uniform(0,1) sample `u` and keep `t` exactly when `u < lambda_t t / lamMax`. -/
def thinLoop (lam_t : ℚ → ℚ) (lamMax : ℚ) : List ℚ → Rng → Option (List ℚ × Rng)
  | [], us => some ([], us)
  | _ :: _, [] => none
  | t :: ts, u :: us =>
    (thinLoop lam_t lamMax ts us).map fun ar =>
      (if u < lam_t t / lamMax then t :: ar.1 else ar.1, ar.2)

/-- `simulateNonHomogeneousPoisson(lambda_t, lambdaMax, T, rng)`
(PoissonProcess.cpp, lines 46–68): first simulate a homogeneous Poisson
process with rate `lambdaMax` on the same engine, then thin the candidate
arrivals. -/
def simulateNonHomogeneousPoisson (lam_t : ℚ → ℚ) (lamMax T : ℚ) (rng : Rng) :
    Option (List ℚ × Rng) :=
  match simulateHomogeneousPoisson lamMax T rng with
  | none => none
  | some cr => thinLoop lam_t lamMax cr.1 cr.2

/-- Modelled from the spec's words (§4.3): the accepted arrivals are those
candidates `t` whose paired independent uniform draw `u` satisfies
`u < rateFunction t / rateMax`, in candidate order. -/
def thinAccept (lam_t : ℚ → ℚ) (lamMax : ℚ) (cand : List ℚ) (us : Rng) : List ℚ :=
  ((cand.zip us).filter fun tu => tu.2 < lam_t tu.1 / lamMax).map Prod.fst

theorem thinAccept_cons (lam_t : ℚ → ℚ) (lamMax t u : ℚ) (ts : List ℚ)
    (us : Rng) :
    thinAccept lam_t lamMax (t :: ts) (u :: us) =
      if u < lam_t t / lamMax then t :: thinAccept lam_t lamMax ts us
      else thinAccept lam_t lamMax ts us := by
  by_cases hacc : u < lam_t t / lamMax
  · simp [thinAccept, List.filter_cons, hacc]
  · simp [thinAccept, List.filter_cons, hacc]

theorem thinLoop_spec (lam_t : ℚ → ℚ) (lamMax : ℚ) (cand : List ℚ) :
    ∀ (us : Rng) (out : List ℚ) (rng' : Rng),
      thinLoop lam_t lamMax cand us = some (out, rng') →
      out = thinAccept lam_t lamMax cand us ∧
      rng' = us.drop cand.length ∧
      List.Sublist out cand := by
  induction cand with
  | nil =>
    intro us out rng' h
    rw [thinLoop] at h
    have h' := (Option.some.injEq _ _).mp h
    obtain ⟨h1, h2⟩ := (Prod.mk.injEq _ _ _ _).mp h'
    subst h1
    subst h2
    exact ⟨by simp [thinAccept], rfl, List.Sublist.refl []⟩
  | cons t ts ih =>
    intro us out rng' h
    cases us with
    | nil => rw [thinLoop] at h; exact absurd h (by simp)
    | cons u us' =>
      rw [thinLoop] at h
      rcases Option.map_eq_some'.mp h with ⟨⟨out₀, rng₀⟩, hrec, heq⟩
      obtain ⟨h1, h2⟩ := (Prod.mk.injEq _ _ _ _).mp heq
      obtain ⟨ha, hd, hs⟩ := ih us' out₀ rng₀ hrec
      subst h2
      by_cases hacc : u < lam_t t / lamMax
      · rw [if_pos hacc] at h1
        subst h1
        refine ⟨?_, ?_, List.Sublist.cons₂ t hs⟩
        · rw [thinAccept_cons, if_pos hacc, ha]
        · simpa using hd
      · rw [if_neg hacc] at h1
        subst h1
        refine ⟨?_, ?_, List.Sublist.cons t hs⟩
        · rw [thinAccept_cons, if_neg hacc, ha]
        · simpa using hd

/-- C3: a successful `simulateNonHomogeneousPoisson` run factors through
`simulateHomogeneousPoisson` at rate `lamMax`; the output accepts exactly the
candidates whose paired uniform draw is below `lam_t t / lamMax`
(`thinAccept`), hence it is a sublist of the candidate sequence and is itself
strictly increasing. -/
theorem simulateNonHomogeneousPoisson_thinning
    (lam_t : ℚ → ℚ) (lamMax T : ℚ) (rng : Rng) (out : List ℚ) (rng₂ : Rng)
    (hMax : 0 < lamMax) (hT : 0 ≤ T) (hpos : ∀ u ∈ rng, 0 < u)
    (h : simulateNonHomogeneousPoisson lam_t lamMax T rng = some (out, rng₂)) :
    ∃ cand rng₁, simulateHomogeneousPoisson lamMax T rng = some (cand, rng₁) ∧
      out = thinAccept lam_t lamMax cand rng₁ ∧
      List.Sublist out cand ∧
      List.Pairwise (fun a b => a < b) out := by
  cases hc : simulateHomogeneousPoisson lamMax T rng with
  | none =>
    rw [simulateNonHomogeneousPoisson, hc] at h
    exact absurd h (by simp)
  | some cr =>
    obtain ⟨cand, rng₁⟩ := cr
    rw [simulateNonHomogeneousPoisson, hc] at h
    obtain ⟨ha, _, hs⟩ := thinLoop_spec lam_t lamMax cand rng₁ out rng₂ h
    have hpair : List.Pairwise (fun a b => a < b) cand :=
      (homPoissonLoop_spec T rng 0 cand rng₁ hpos hc).2
    exact ⟨cand, rng₁, rfl, ha, hs, List.Pairwise.sublist hs hpair⟩

/-- Witness for C3: rate function `t`, `lamMax = 1`, horizon 1, stream
`[1/2, 1/2, 3/4, 1/4, 3/4]` (two gaps, one overshooting gap, two uniforms):
candidates `[1/2, 1]` are both accepted. -/
theorem simulateNonHomogeneousPoisson_thinning_w :
    ((0:ℚ) < 1 ∧ (0:ℚ) ≤ 1 ∧ (∀ u ∈ [(1:ℚ)/2, 1/2, 3/4, 1/4, 3/4], 0 < u) ∧
      simulateNonHomogeneousPoisson (fun t => t) 1 1 [1/2, 1/2, 3/4, 1/4, 3/4] =
        some ([1/2, 1], [])) ∧
    (∃ cand rng₁,
      simulateHomogeneousPoisson 1 1 [(1:ℚ)/2, 1/2, 3/4, 1/4, 3/4] =
        some (cand, rng₁) ∧
      [(1:ℚ)/2, 1] = thinAccept (fun t => t) 1 cand rng₁ ∧
      List.Sublist [(1:ℚ)/2, 1] cand ∧
      List.Pairwise (fun a b => a < b) [(1:ℚ)/2, 1]) :=
  ⟨⟨by norm_num, by norm_num, by norm_num,
      by norm_num [simulateNonHomogeneousPoisson, simulateHomogeneousPoisson,
        homPoissonLoop, thinLoop]⟩,
    simulateNonHomogeneousPoisson_thinning (fun t => t) 1 1
      [1/2, 1/2, 3/4, 1/4, 3/4] [1/2, 1] [] (by norm_num) (by norm_num)
      (by norm_num)
      (by norm_num [simulateNonHomogeneousPoisson, simulateHomogeneousPoisson,
        homPoissonLoop, thinLoop])⟩

theorem thinLoop_const (lamMax : ℚ) (hMax : 0 < lamMax) (cand : List ℚ) :
    ∀ us : Rng, (∀ u ∈ us, 0 ≤ u ∧ u < 1) → cand.length ≤ us.length →
      thinLoop (fun _ => lamMax) lamMax cand us =
        some (cand, us.drop cand.length) := by
  induction cand with
  | nil => intro us _ _; simp [thinLoop]
  | cons t ts ih =>
    intro us hu hlen
    cases us with
    | nil => simp at hlen
    | cons u us' =>
      have hu0 := hu u (List.mem_cons_self u us')
      have hacc : u < lamMax / lamMax := by
        rw [div_self (ne_of_gt hMax)]; exact hu0.2
      rw [thinLoop, ih us' (fun v hv => hu v (List.mem_cons_of_mem u hv))
        (Nat.le_of_succ_le_succ hlen)]
      simp [hacc]

/-- C4: with the constant rate function `fun _ => lamMax` every candidate is
accepted (`u < lamMax / lamMax = 1` holds for every uniform(0,1) draw), so
`simulateNonHomogeneousPoisson` returns exactly the candidate arrival
sequence that `simulateHomogeneousPoisson` produced on the same engine; only
the engine state differs by the consumed uniform draws. -/
theorem thinning_constant_rate_eq_homogeneous
    (lamMax T : ℚ) (rng : Rng) (cand : List ℚ) (rng₁ : Rng)
    (hMax : 0 < lamMax)
    (h : simulateHomogeneousPoisson lamMax T rng = some (cand, rng₁))
    (hu : ∀ u ∈ rng₁, 0 ≤ u ∧ u < 1)
    (hlen : cand.length ≤ rng₁.length) :
    simulateNonHomogeneousPoisson (fun _ => lamMax) lamMax T rng =
      some (cand, rng₁.drop cand.length) := by
  rw [simulateNonHomogeneousPoisson, h]
  exact thinLoop_const lamMax hMax cand rng₁ hu hlen

/-- Witness for C4 at `lamMax = 1`, horizon 1, stream
`[1/2, 1/2, 3/4, 1/4, 1/4]`: the homogeneous run yields candidates
`[1/2, 1]` with residual uniforms `[1/4, 1/4]`, and the constant-rate thinned
run returns exactly those candidates. -/
theorem thinning_constant_rate_eq_homogeneous_w :
    ((0:ℚ) < 1 ∧
      simulateHomogeneousPoisson 1 1 [(1:ℚ)/2, 1/2, 3/4, 1/4, 1/4] =
        some ([1/2, 1], [1/4, 1/4]) ∧
      (∀ u ∈ [(1:ℚ)/4, 1/4], 0 ≤ u ∧ u < 1) ∧
      ([(1:ℚ)/2, 1] : List ℚ).length ≤ ([(1:ℚ)/4, 1/4] : List ℚ).length) ∧
    simulateNonHomogeneousPoisson (fun _ => 1) 1 1 [1/2, 1/2, 3/4, 1/4, 1/4] =
      some ([1/2, 1], ([(1:ℚ)/4, 1/4] : List ℚ).drop ([(1:ℚ)/2, 1] : List ℚ).length) :=
  ⟨⟨by norm_num,
      by norm_num [simulateHomogeneousPoisson, homPoissonLoop],
      by norm_num, by norm_num⟩,
    thinning_constant_rate_eq_homogeneous 1 1 [1/2, 1/2, 3/4, 1/4, 1/4]
      [1/2, 1] [1/4, 1/4] (by norm_num)
      (by norm_num [simulateHomogeneousPoisson, homPoissonLoop])
      (by norm_num) (by norm_num)⟩

/-- Loop body of `simulateCompoundPoisson` (PoissonProcess.cpp, lines
90–99): for each arrival time in order draw one jump via `jumpGenerator`
(which may consume engine draws, so it maps an engine state to a value and a
new engine state), add it to the running compound value, and record the pair
`(time, new compound value)`. -/
def compoundLoop (jumpGen : Rng → ℚ × Rng) :
    List ℚ → ℚ → Rng → List (ℚ × ℚ) × Rng
  | [], _, rng => ([], rng)
  | t :: ts, c, rng =>
    let jr := jumpGen rng
    let rest := compoundLoop jumpGen ts (c + jr.1) jr.2
    ((t, c + jr.1) :: rest.1, rest.2)

/-- `simulateCompoundPoisson(lambda, T, rng, jumpGenerator)`
(PoissonProcess.cpp, lines 78–102): obtain the arrival times from a
homogeneous Poisson run on the same engine, then accumulate one jump per
arrival starting from compound value 0. -/
def simulateCompoundPoisson (lam T : ℚ) (rng : Rng)
    (jumpGen : Rng → ℚ × Rng) : Option (List (ℚ × ℚ) × Rng) :=
  match simulateHomogeneousPoisson lam T rng with
  | none => none
  | some ar => some (compoundLoop jumpGen ar.1 0 ar.2)

/-- The successive jump values `jumpGenerator` returns when invoked once per
arrival, threading the engine state through the calls. -/
def jumpsDrawn (jumpGen : Rng → ℚ × Rng) : List ℚ → Rng → List ℚ
  | [], _ => []
  | _ :: ts, rng =>
    let jr := jumpGen rng
    jr.1 :: jumpsDrawn jumpGen ts jr.2

/-- Running sums of a jump list starting from the accumulator `c`: entry `i`
is `c` plus the sum of the first `i + 1` jumps. -/
def cumSums : ℚ → List ℚ → List ℚ
  | _, [] => []
  | c, j :: js => (c + j) :: cumSums (c + j) js

theorem cumSums_getD (js : List ℚ) :
    ∀ (c : ℚ) (i : ℕ), i < js.length →
      (cumSums c js).getD i 0 = c + (js.take (i + 1)).sum := by
  induction js with
  | nil => intro c i hi; simp at hi
  | cons j js' ih =>
    intro c i hi
    cases i with
    | zero => simp [cumSums]
    | succ i =>
      rw [cumSums]
      have := ih (c + j) i (Nat.lt_of_succ_lt_succ hi)
      simp only [List.getD_cons_succ, List.take_succ_cons, List.sum_cons]
      rw [this]
      ring

theorem compoundLoop_spec (jumpGen : Rng → ℚ × Rng) (arr : List ℚ) :
    ∀ (c : ℚ) (rng : Rng),
      (compoundLoop jumpGen arr c rng).1.map Prod.fst = arr ∧
      (compoundLoop jumpGen arr c rng).1.map Prod.snd =
        cumSums c (jumpsDrawn jumpGen arr rng) ∧
      (compoundLoop jumpGen arr c rng).1.length = arr.length ∧
      (jumpsDrawn jumpGen arr rng).length = arr.length := by
  induction arr with
  | nil => intro c rng; simp [compoundLoop, jumpsDrawn, cumSums]
  | cons t ts ih =>
    intro c rng
    obtain ⟨h1, h2, h3, h4⟩ := ih (c + (jumpGen rng).1) (jumpGen rng).2
    refine ⟨?_, ?_, ?_, ?_⟩
    · simp only [compoundLoop, List.map_cons]
      rw [h1]
    · simp only [compoundLoop, jumpsDrawn, cumSums, List.map_cons]
      rw [h2]
    · simp only [compoundLoop, List.length_cons]
      rw [h3]
    · simp only [jumpsDrawn, List.length_cons]
      rw [h4]

/-- C5: a successful `simulateCompoundPoisson` run is built on a homogeneous
Poisson arrival sequence obtained from the same engine; the path has exactly
one entry per arrival, its times are exactly the arrival times (strictly
increasing and ≤ the horizon), `jumpGenerator` is invoked exactly once per
arrival (`jumpsDrawn` has one jump per arrival and none beyond), and the
value recorded at index `i` is exactly the sum of the first `i + 1` jumps. -/
theorem simulateCompoundPoisson_prefix_sums
    (lam T : ℚ) (rng : Rng) (jumpGen : Rng → ℚ × Rng)
    (path : List (ℚ × ℚ)) (rng₂ : Rng)
    (hlam : 0 < lam) (hT : 0 ≤ T) (hpos : ∀ u ∈ rng, 0 < u)
    (h : simulateCompoundPoisson lam T rng jumpGen = some (path, rng₂)) :
    ∃ arr rng₁, simulateHomogeneousPoisson lam T rng = some (arr, rng₁) ∧
      path.length = arr.length ∧
      path.map Prod.fst = arr ∧
      List.Pairwise (fun a b => a < b) (path.map Prod.fst) ∧
      (∀ tv ∈ path, tv.1 ≤ T) ∧
      (jumpsDrawn jumpGen arr rng₁).length = arr.length ∧
      (∀ i, i < path.length →
        (path.map Prod.snd).getD i 0 =
          ((jumpsDrawn jumpGen arr rng₁).take (i + 1)).sum) := by
  cases hc : simulateHomogeneousPoisson lam T rng with
  | none =>
    rw [simulateCompoundPoisson, hc] at h
    exact absurd h (by simp)
  | some ar =>
    obtain ⟨arr, rng₁⟩ := ar
    rw [simulateCompoundPoisson, hc] at h
    have hpath : path = (compoundLoop jumpGen arr 0 rng₁).1 := by
      have h' := (Option.some.injEq _ _).mp h
      exact ((Prod.mk.injEq _ _ _ _).mp h').1.symm
    obtain ⟨h1, h2, h3, h4⟩ := compoundLoop_spec jumpGen arr 0 rng₁
    obtain ⟨hmem, hpair⟩ := homPoissonLoop_spec T rng 0 arr rng₁ hpos hc
    subst hpath
    refine ⟨arr, rng₁, rfl, h3, h1, ?_, ?_, h4, ?_⟩
    · rw [h1]; exact hpair
    · intro tv htv
      have : tv.1 ∈ arr := by
        rw [← h1]
        exact List.mem_map_of_mem Prod.fst htv
      exact (hmem tv.1 this).2
    · intro i hi
      rw [h2, cumSums_getD, zero_add]
      rw [h4, ← h3]
      exact hi

/-- Witness for C5: rate 1, horizon 1, stream `[1/2, 1/2, 3/4, 5, 7]` and a
jump generator that consumes one draw per call; the arrivals are `[1/2, 1]`
with jumps `[5, 7]`, giving the path `[(1/2, 5), (1, 12)]`. -/
theorem simulateCompoundPoisson_prefix_sums_w :
    ((0:ℚ) < 1 ∧ (0:ℚ) ≤ 1 ∧ (∀ u ∈ [(1:ℚ)/2, 1/2, 3/4, 5, 7], 0 < u) ∧
      simulateCompoundPoisson 1 1 [1/2, 1/2, 3/4, 5, 7]
        (fun r => (r.headD 0, r.tail)) = some ([(1/2, 5), (1, 12)], [])) ∧
    (∃ arr rng₁,
      simulateHomogeneousPoisson 1 1 [(1:ℚ)/2, 1/2, 3/4, 5, 7] =
        some (arr, rng₁) ∧
      ([((1:ℚ)/2, (5:ℚ)), (1, 12)] : List (ℚ × ℚ)).length = arr.length ∧
      ([((1:ℚ)/2, (5:ℚ)), (1, 12)] : List (ℚ × ℚ)).map Prod.fst = arr ∧
      List.Pairwise (fun a b => a < b)
        (([((1:ℚ)/2, (5:ℚ)), (1, 12)] : List (ℚ × ℚ)).map Prod.fst) ∧
      (∀ tv ∈ ([((1:ℚ)/2, (5:ℚ)), (1, 12)] : List (ℚ × ℚ)), tv.1 ≤ 1) ∧
      (jumpsDrawn (fun r => (r.headD 0, r.tail)) arr rng₁).length = arr.length ∧
      (∀ i, i < ([((1:ℚ)/2, (5:ℚ)), (1, 12)] : List (ℚ × ℚ)).length →
        (([((1:ℚ)/2, (5:ℚ)), (1, 12)] : List (ℚ × ℚ)).map Prod.snd).getD i 0 =
          ((jumpsDrawn (fun r => (r.headD 0, r.tail)) arr rng₁).take (i + 1)).sum)) :=
  ⟨⟨by norm_num, by norm_num, by norm_num,
      by norm_num [simulateCompoundPoisson, simulateHomogeneousPoisson,
        homPoissonLoop, compoundLoop]⟩,
    simulateCompoundPoisson_prefix_sums 1 1 [1/2, 1/2, 3/4, 5, 7]
      (fun r => (r.headD 0, r.tail)) [(1/2, 5), (1, 12)] []
      (by norm_num) (by norm_num) (by norm_num)
      (by norm_num [simulateCompoundPoisson, simulateHomogeneousPoisson,
        homPoissonLoop, compoundLoop])⟩

/-- Inverse-CDF transform of `std::discrete_distribution` over a weight list:
given the unnormalised target `t` (the uniform sample scaled by the total
weight), return the first index whose weight makes the running total exceed
`t`, walking the weights front to back.  When the target is not exceeded by
any weight (possible only outside the distribution's own precondition of a
positive total weight) the returned index falls past the end of the list. -/
def catPick : ℚ → List ℚ → ℕ
  | _, [] => 0
  | t, w :: ws => if t < w then 0 else catPick (t - w) ws + 1

/-- One draw of `std::discrete_distribution(w.begin(), w.end())`: the engine
entry `u` is the underlying uniform(0,1) sample and the sampled index is the
inverse-CDF transform of `u * w.sum`. -/
def discreteDraw (w : List ℚ) (u : ℚ) : ℕ := catPick (u * w.sum) w

/-- Loop body of `simMarkovChain` (second translation unit, lines 177–185):
for each of the `k` remaining steps, build the discrete distribution from the
row of `p` indexed by the current state, sample the next state from it, and
record it.  Out-of-range row indexing (undefined behaviour for
`std::vector::operator[]`) is totalised with the empty row; theorems only
invoke the loop with in-range states. -/
def markovLoop (p : List (List ℚ)) : ℕ → ℕ → Rng → Option (List ℕ × Rng)
  | _, 0, g => some ([], g)
  | _, _ + 1, [] => none
  | prev, k + 1, u :: g =>
    (markovLoop p (discreteDraw (p.getD prev []) u) k g).map fun tg =>
      (discreteDraw (p.getD prev []) u :: tg.1, tg.2)

/-- `simMarkovChain(p, x0, n)` (second translation unit, lines 164–187): the
path holds `n + 1` states, state 0 being `x0`.  The C++ function draws from a
file-scope `static std::mt19937`; the parameter `g` here is the state of that
static engine when the call starts, returned alongside the path. -/
def simMarkovChain (p : List (List ℚ)) (x0 : ℕ) (n : ℕ) (g : Rng) :
    Option (List ℕ × Rng) :=
  (markovLoop p x0 n g).map fun tg => (x0 :: tg.1, tg.2)

theorem catPick_lt_length :
    ∀ (ws : List ℚ) (t : ℚ), 0 ≤ t → t < ws.sum → catPick t ws < ws.length := by
  intro ws
  induction ws with
  | nil =>
    intro t h0 hs
    rw [List.sum_nil] at hs
    exact absurd (lt_of_le_of_lt h0 hs) (lt_irrefl 0)
  | cons w ws' ih =>
    intro t h0 hs
    rw [catPick]
    by_cases hlt : t < w
    · rw [if_pos hlt]
      simp
    · rw [if_neg hlt]
      have h0' : 0 ≤ t - w := sub_nonneg.mpr (le_of_not_lt hlt)
      have hs' : t - w < ws'.sum := by
        rw [List.sum_cons] at hs
        linarith
      simpa [List.length_cons] using Nat.succ_lt_succ (ih (t - w) h0' hs')

theorem catPick_getD_pos :
    ∀ (ws : List ℚ) (t : ℚ), 0 ≤ t → t < ws.sum →
      0 < ws.getD (catPick t ws) 0 := by
  intro ws
  induction ws with
  | nil =>
    intro t h0 hs
    rw [List.sum_nil] at hs
    exact absurd (lt_of_le_of_lt h0 hs) (lt_irrefl 0)
  | cons w ws' ih =>
    intro t h0 hs
    rw [catPick]
    by_cases hlt : t < w
    · rw [if_pos hlt]
      simpa using lt_of_le_of_lt h0 hlt
    · rw [if_neg hlt]
      have h0' : 0 ≤ t - w := sub_nonneg.mpr (le_of_not_lt hlt)
      have hs' : t - w < ws'.sum := by
        rw [List.sum_cons] at hs
        linarith
      simpa [List.getD_cons_succ] using ih (t - w) h0' hs'

theorem markovLoop_spec (p : List (List ℚ))
    (hsq : ∀ row ∈ p, row.length = p.length)
    (hrow : ∀ row ∈ p, 0 < row.sum) :
    ∀ (k : ℕ) (prev : ℕ) (g : Rng), prev < p.length →
      (∀ u ∈ g, 0 ≤ u ∧ u < 1) → k ≤ g.length →
      ∃ tail, markovLoop p prev k g = some (tail, g.drop k) ∧
        tail.length = k ∧
        (∀ s ∈ tail, s < p.length) ∧
        List.Chain' (fun a b => 0 < (p.getD a []).getD b 0) (prev :: tail) ∧
        (∀ i, i < k → (prev :: tail).getD (i + 1) 0 =
          discreteDraw (p.getD ((prev :: tail).getD i 0) []) (g.getD i 0)) := by
  intro k
  induction k with
  | zero =>
    intro prev g hprev hu _
    exact ⟨[], by simp [markovLoop], rfl, fun s hs => absurd hs (List.not_mem_nil s),
      by simp, fun i hi => absurd hi (Nat.not_lt_zero i)⟩
  | succ k ih =>
    intro prev g hprev hu hlen
    cases g with
    | nil => simp at hlen
    | cons u g' =>
      have hrowmem : p.getD prev [] ∈ p := by
        rw [List.getD_eq_getElem p [] hprev]
        exact List.getElem_mem hprev
      have hsum : 0 < (p.getD prev []).sum := hrow _ hrowmem
      have hu0 := hu u (List.mem_cons_self u g')
      have ht0 : 0 ≤ u * (p.getD prev []).sum := mul_nonneg hu0.1 (le_of_lt hsum)
      have ht1 : u * (p.getD prev []).sum < (p.getD prev []).sum :=
        (mul_lt_iff_lt_one_left hsum).mpr hu0.2
      have hnext : discreteDraw (p.getD prev []) u < p.length := by
        rw [← hsq _ hrowmem]
        exact catPick_lt_length _ _ ht0 ht1
      have hposw : 0 < (p.getD prev []).getD (discreteDraw (p.getD prev []) u) 0 :=
        catPick_getD_pos _ _ ht0 ht1
      obtain ⟨tail, heq, hlen', hm, hchain, hform⟩ :=
        ih (discreteDraw (p.getD prev []) u) g' hnext
          (fun v hv => hu v (List.mem_cons_of_mem u hv))
          (Nat.le_of_succ_le_succ hlen)
      refine ⟨discreteDraw (p.getD prev []) u :: tail, ?_, ?_, ?_, ?_, ?_⟩
      · rw [markovLoop, heq]
        simp
      · simp [hlen']
      · intro s hs
        rcases List.mem_cons.mp hs with hs | hs
        · subst hs; exact hnext
        · exact hm s hs
      · exact List.chain'_cons.mpr ⟨hposw, hchain⟩
      · intro i hi
        cases i with
        | zero => simp
        | succ i =>
          have := hform i (Nat.lt_of_succ_lt_succ hi)
          simpa using this

/-- C6: for a valid transition matrix (square, nonnegative entries, rows
summing to 1), a valid initial state and `steps = n ≥ 0`, `simMarkovChain`
consumes exactly one independent uniform draw per step and returns a path of
length `n + 1` whose state 0 is `x0`; every state is a valid row index, each
subsequent state is the categorical draw (`discreteDraw`) over the row
indexed by the current state using that step's uniform sample, and every
realised transition has strictly positive probability in the matrix. -/
theorem simMarkovChain_path_spec (p : List (List ℚ)) (x0 n : ℕ) (g : Rng)
    (hsq : ∀ row ∈ p, row.length = p.length)
    (hsum1 : ∀ row ∈ p, row.sum = 1)
    (hnn : ∀ row ∈ p, ∀ w ∈ row, 0 ≤ w)
    (hx0 : x0 < p.length)
    (hu : ∀ u ∈ g, 0 ≤ u ∧ u < 1)
    (hlen : n ≤ g.length) :
    ∃ path, simMarkovChain p x0 n g = some (path, g.drop n) ∧
      path.length = n + 1 ∧
      path.getD 0 0 = x0 ∧
      (∀ s ∈ path, s < p.length) ∧
      List.Chain' (fun a b => 0 < (p.getD a []).getD b 0) path ∧
      (∀ i, i < n → path.getD (i + 1) 0 =
        discreteDraw (p.getD (path.getD i 0) []) (g.getD i 0)) := by
  have hrow : ∀ row ∈ p, 0 < row.sum := fun row hr => by
    rw [hsum1 row hr]; norm_num
  obtain ⟨tail, heq, hl, hm, hc, hf⟩ :=
    markovLoop_spec p hsq hrow n x0 g hx0 hu hlen
  refine ⟨x0 :: tail, ?_, by simp [hl], by simp, ?_, hc, hf⟩
  · rw [simMarkovChain, heq]
    rfl
  · intro s hs
    rcases List.mem_cons.mp hs with hs | hs
    · subst hs; exact hx0
    · exact hm s hs

/-- Witness for C6 on the transition matrix of the repository's `main`
(`{{0.2,0.3,0.5},{0,0.3,0.7},{0.5,0.4,0.1}}`), initial state 0, 2 steps and
uniform samples `[1/4, 9/10]`. -/
theorem simMarkovChain_path_spec_w :
    ((∀ row ∈ [[(1:ℚ)/5, 3/10, 1/2], [0, 3/10, 7/10], [1/2, 2/5, 1/10]],
        row.length = 3) ∧
      (∀ row ∈ [[(1:ℚ)/5, 3/10, 1/2], [0, 3/10, 7/10], [1/2, 2/5, 1/10]],
        row.sum = 1) ∧
      (∀ row ∈ [[(1:ℚ)/5, 3/10, 1/2], [0, 3/10, 7/10], [1/2, 2/5, 1/10]],
        ∀ w ∈ row, 0 ≤ w) ∧
      (∀ u ∈ [(1:ℚ)/4, 9/10], 0 ≤ u ∧ u < 1)) ∧
    (∃ path,
      simMarkovChain [[(1:ℚ)/5, 3/10, 1/2], [0, 3/10, 7/10], [1/2, 2/5, 1/10]]
          0 2 [1/4, 9/10] = some (path, ([(1:ℚ)/4, 9/10] : Rng).drop 2) ∧
      path.length = 2 + 1 ∧
      path.getD 0 0 = 0 ∧
      (∀ s ∈ path,
        s < ([[(1:ℚ)/5, 3/10, 1/2], [0, 3/10, 7/10],
          [1/2, 2/5, 1/10]] : List (List ℚ)).length) ∧
      List.Chain' (fun a b =>
        0 < (([[(1:ℚ)/5, 3/10, 1/2], [0, 3/10, 7/10],
          [1/2, 2/5, 1/10]] : List (List ℚ)).getD a []).getD b 0) path ∧
      (∀ i, i < 2 → path.getD (i + 1) 0 =
        discreteDraw (([[(1:ℚ)/5, 3/10, 1/2], [0, 3/10, 7/10],
            [1/2, 2/5, 1/10]] : List (List ℚ)).getD (path.getD i 0) [])
          (([(1:ℚ)/4, 9/10] : Rng).getD i 0))) :=
  ⟨⟨by norm_num, by norm_num, by norm_num, by norm_num⟩,
    simMarkovChain_path_spec
      [[(1:ℚ)/5, 3/10, 1/2], [0, 3/10, 7/10], [1/2, 2/5, 1/10]] 0 2
      [1/4, 9/10] (by norm_num) (by norm_num) (by norm_num) (by norm_num)
      (by norm_num) (by norm_num)⟩

/-- C9 (amended): with the additional precondition that every row's weights
total a strictly positive sum (implied by the §4.5 row-sum-1 validity
condition), every access in `simMarkovChain` is in bounds: the path indices
`0 .. n` address a vector of size `n + 1`, every state in the path — hence
every row index `x[i-1]` used to select a distribution — is below the number
of rows. -/
theorem simMarkovChain_accesses_in_bounds (p : List (List ℚ)) (x0 n : ℕ)
    (g : Rng)
    (hsq : ∀ row ∈ p, row.length = p.length)
    (hrow : ∀ row ∈ p, 0 < row.sum)
    (hx0 : x0 < p.length)
    (hu : ∀ u ∈ g, 0 ≤ u ∧ u < 1)
    (hlen : n ≤ g.length) :
    ∃ path, simMarkovChain p x0 n g = some (path, g.drop n) ∧
      path.length = n + 1 ∧
      (∀ s ∈ path, s < p.length) := by
  obtain ⟨tail, heq, hl, hm, _, _⟩ :=
    markovLoop_spec p hsq hrow n x0 g hx0 hu hlen
  refine ⟨x0 :: tail, ?_, by simp [hl], ?_⟩
  · rw [simMarkovChain, heq]
    rfl
  · intro s hs
    rcases List.mem_cons.mp hs with hs | hs
    · subst hs; exact hx0
    · exact hm s hs

/-- Witness for the amended C9 on a square matrix with a row of positive sum
but not summing to 1 (`[[1, 1], [3, 0]]`), initial state 1, one step, uniform
sample `1/2`. -/
theorem simMarkovChain_accesses_in_bounds_w :
    ((∀ row ∈ [[(1:ℚ), 1], [3, 0]], row.length = 2) ∧
      (∀ row ∈ [[(1:ℚ), 1], [3, 0]], 0 < row.sum) ∧
      (∀ u ∈ [(1:ℚ)/2], 0 ≤ u ∧ u < 1)) ∧
    (∃ path,
      simMarkovChain [[(1:ℚ), 1], [3, 0]] 1 1 [1/2] =
        some (path, ([(1:ℚ)/2] : Rng).drop 1) ∧
      path.length = 1 + 1 ∧
      (∀ s ∈ path, s < ([[(1:ℚ), 1], [3, 0]] : List (List ℚ)).length)) :=
  ⟨⟨by norm_num, by norm_num, by norm_num⟩,
    simMarkovChain_accesses_in_bounds [[(1:ℚ), 1], [3, 0]] 1 1 [1/2]
      (by norm_num) (by norm_num) (by norm_num) (by norm_num) (by norm_num)⟩

/-- Counterexample to C9 as stated: the matrix `[[0]]` is square with every
row nonempty, the initial state 0 is in range and `steps = 1 ≥ 0`, yet with
uniform sample 0 the categorical draw over the all-zero row walks past the
end of the weight list and returns state 1, which is not below the number of
rows (1).  (`std::discrete_distribution` requires a positive total weight;
the stated preconditions do not guarantee that.) -/
theorem simMarkovChain_zero_row_out_of_range :
    simMarkovChain [[0]] 0 1 [0] = some ([0, 1], []) ∧
    ¬ (∀ s ∈ [0, 1], s < ([[(0:ℚ)]] : List (List ℚ)).length) :=
  ⟨by norm_num [simMarkovChain, markovLoop, discreteDraw, catPick],
    by intro h; exact absurd (h 1 (by simp)) (by norm_num)⟩

/-- Loop body of `simRandomWalk` (third translation unit, lines 229–232):
for each of the `k` remaining steps draw one Bernoulli(p) sample — the engine
entry `u` is the underlying uniform(0,1) sample and the outcome is `u < p` —
and move the position by `+1` on success and `-1` on failure, recording each
position. -/
def walkLoop (p : ℚ) : ℤ → ℕ → Rng → Option (List ℤ × Rng)
  | _, 0, g => some ([], g)
  | _, _ + 1, [] => none
  | pos, k + 1, u :: g =>
    (walkLoop p (pos + if u < p then 1 else -1) k g).map fun tg =>
      ((pos + if u < p then 1 else -1) :: tg.1, tg.2)

/-- `simRandomWalk(p, n)` (third translation unit, lines 220–235).  The C++
function creates `std::vector<int> positions(n+1, 0)`: for `n = -1` this is
the empty vector and the loop body never runs, so the call returns an empty
path (for `n ≤ -2` the size conversion to `size_t` wraps and construction
fails, so the embedding is only claimed faithful for `n ≥ -1`).  Like
`simMarkovChain`, the C++ function draws from a file-scope
`static std::mt19937`; `g` is that static engine's state at call entry. -/
def simRandomWalk (p : ℚ) (n : ℤ) (g : Rng) : Option (List ℤ × Rng) :=
  if n < 0 then some ([], g)
  else (walkLoop p 0 n.toNat g).map fun tg => ((0 : ℤ) :: tg.1, tg.2)

theorem walkLoop_spec (p : ℚ) :
    ∀ (k : ℕ) (pos : ℤ) (g : Rng), k ≤ g.length →
      ∃ tail, walkLoop p pos k g = some (tail, g.drop k) ∧
        tail.length = k ∧
        List.Chain' (fun a b => b - a = 1 ∨ b - a = -1) (pos :: tail) ∧
        (∀ i, i < k → (pos :: tail).getD (i + 1) 0 =
          (pos :: tail).getD i 0 + (if g.getD i 0 < p then 1 else -1)) ∧
        (∀ j, j < tail.length →
          -((j : ℤ) + 1) ≤ tail.getD j 0 - pos ∧
          tail.getD j 0 - pos ≤ (j : ℤ) + 1 ∧
          (tail.getD j 0 - pos + ((j : ℤ) + 1)) % 2 = 0) := by
  intro k
  induction k with
  | zero =>
    intro pos g _
    exact ⟨[], by simp [walkLoop], rfl, by simp,
      fun i hi => absurd hi (Nat.not_lt_zero i),
      fun j hj => absurd hj (Nat.not_lt_zero j)⟩
  | succ k ih =>
    intro pos g hlen
    cases g with
    | nil => simp at hlen
    | cons u g' =>
      obtain ⟨tail, heq, hl, hc, hf, hb⟩ :=
        ih (pos + if u < p then 1 else -1) g' (Nat.le_of_succ_le_succ hlen)
      have hstep : (if u < p then (1 : ℤ) else -1) = 1 ∨
          (if u < p then (1 : ℤ) else -1) = -1 := by
        by_cases h : u < p
        · exact Or.inl (if_pos h)
        · exact Or.inr (if_neg h)
      refine ⟨(pos + if u < p then 1 else -1) :: tail, ?_, ?_, ?_, ?_, ?_⟩
      · rw [walkLoop, heq]
        simp
      · simp [hl]
      · refine List.chain'_cons.mpr ⟨?_, hc⟩
        rcases hstep with h | h <;> rw [h] <;> [left; right] <;> ring
      · intro i hi
        cases i with
        | zero => simp
        | succ i =>
          have := hf i (Nat.lt_of_succ_lt_succ hi)
          simpa using this
      · intro j hj
        cases j with
        | zero =>
          simp only [List.getD_cons_zero, Nat.cast_zero]
          rcases hstep with h | h <;> rw [h] <;> norm_num
        | succ j =>
          have hj' : j < tail.length := by simpa using hj
          obtain ⟨hlb, hub, hpar⟩ := hb j hj'
          simp only [List.getD_cons_succ]
          push_cast
          rcases hstep with h | h <;> rw [h] at hlb hub hpar <;>
            exact ⟨by omega, by omega, by omega⟩

/-- C7: for `0 ≤ upProbability ≤ 1` and `steps = n ≥ 0`, `simRandomWalk`
returns a path of length `n + 1` starting at position 0, consuming one
Bernoulli draw per step; consecutive positions differ by exactly `±1`, with
`+1` exactly when the step's uniform sample is below `p` (Bernoulli success)
and `-1` otherwise. -/
theorem simRandomWalk_path_spec (p : ℚ) (n : ℤ) (g : Rng)
    (hp : 0 ≤ p ∧ p ≤ 1) (hn : 0 ≤ n) (hlen : n.toNat ≤ g.length) :
    ∃ path, simRandomWalk p n g = some (path, g.drop n.toNat) ∧
      path.length = n.toNat + 1 ∧
      path.getD 0 0 = 0 ∧
      List.Chain' (fun a b => b - a = 1 ∨ b - a = -1) path ∧
      (∀ i, i < n.toNat → path.getD (i + 1) 0 =
        path.getD i 0 + (if g.getD i 0 < p then 1 else -1)) := by
  obtain ⟨tail, heq, hl, hc, hf, _⟩ := walkLoop_spec p n.toNat 0 g hlen
  refine ⟨(0 : ℤ) :: tail, ?_, by simp [hl], by simp, hc, hf⟩
  rw [simRandomWalk, if_neg (not_lt.mpr hn), heq]
  rfl

/-- Witness for C7 at `p = 1/2`, `n = 2`, uniform samples `[1/4, 3/4]`:
the path is `[0, 1, 0]`. -/
theorem simRandomWalk_path_spec_w :
    (((0:ℚ) ≤ 1/2 ∧ (1:ℚ)/2 ≤ 1) ∧ (0:ℤ) ≤ 2 ∧
      (2:ℤ).toNat ≤ ([(1:ℚ)/4, 3/4] : Rng).length) ∧
    (∃ path, simRandomWalk (1/2) 2 [1/4, 3/4] =
        some (path, ([(1:ℚ)/4, 3/4] : Rng).drop (2:ℤ).toNat) ∧
      path.length = (2:ℤ).toNat + 1 ∧
      path.getD 0 0 = 0 ∧
      List.Chain' (fun a b => b - a = 1 ∨ b - a = -1) path ∧
      (∀ i, i < (2:ℤ).toNat → path.getD (i + 1) 0 =
        path.getD i 0 +
          (if ([(1:ℚ)/4, 3/4] : Rng).getD i 0 < 1/2 then 1 else -1))) :=
  ⟨⟨⟨by norm_num, by norm_num⟩, by norm_num, by norm_num⟩,
    simRandomWalk_path_spec (1/2) 2 [1/4, 3/4]
      ⟨by norm_num, by norm_num⟩ (by norm_num) (by norm_num)⟩

/-- C10: every position of a random-walk path is bounded in absolute value
by its index and has the parity of its index (`position[i] + i` is even). -/
theorem simRandomWalk_bounded_parity (p : ℚ) (n : ℤ) (g : Rng)
    (hn : 0 ≤ n) (hlen : n.toNat ≤ g.length) :
    ∃ path, simRandomWalk p n g = some (path, g.drop n.toNat) ∧
      ∀ i, i < path.length →
        (path.getD i 0).natAbs ≤ i ∧ (path.getD i 0 + (i : ℤ)) % 2 = 0 := by
  obtain ⟨tail, heq, hl, _, _, hb⟩ := walkLoop_spec p n.toNat 0 g hlen
  refine ⟨(0 : ℤ) :: tail, ?_, ?_⟩
  · rw [simRandomWalk, if_neg (not_lt.mpr hn), heq]
    rfl
  · intro i hi
    cases i with
    | zero => simp
    | succ i =>
      have hi' : i < tail.length := by simpa using hi
      obtain ⟨hlb, hub, hpar⟩ := hb i hi'
      simp only [List.getD_cons_succ]
      constructor
      · omega
      · push_cast at hpar ⊢
        omega

/-- Witness for C10 at `p = 1/3`, `n = 2`, uniform samples `[1/4, 3/4]`. -/
theorem simRandomWalk_bounded_parity_w :
    ((0:ℤ) ≤ 2 ∧ (2:ℤ).toNat ≤ ([(1:ℚ)/4, 3/4] : Rng).length) ∧
    (∃ path, simRandomWalk (1/3) 2 [1/4, 3/4] =
        some (path, ([(1:ℚ)/4, 3/4] : Rng).drop (2:ℤ).toNat) ∧
      ∀ i, i < path.length →
        (path.getD i 0).natAbs ≤ i ∧ (path.getD i 0 + (i : ℤ)) % 2 = 0) :=
  ⟨⟨by norm_num, by norm_num⟩,
    simRandomWalk_bounded_parity (1/3) 2 [1/4, 3/4] (by norm_num) (by norm_num)⟩

/-- Counterexample to C2: calling `simRandomWalk` with the §4-violating step
count `steps = -1` is well-defined C++ (`positions(n+1, 0)` is the empty
vector and the loop body never runs) and returns normally with an empty
path: no `InvalidParameter` error kind exists anywhere in the code and
nothing is raised before generation begins. -/
theorem simRandomWalk_negative_steps_no_error :
    simRandomWalk (1/2) (-1) [] = some ([], []) := by
  norm_num [simRandomWalk]

/-- C2 (amended): the generators perform no parameter validation and define
no error kind at all; a call that violates a §4 precondition but is
well-defined C++ returns normally with a generated value.  `simRandomWalk`
with `steps = -1` returns the empty path for every probability and engine
state, and `simMarkovChain` runs on a malformed transition matrix whose rows
sum to 2 instead of 1, returning a full-length path. -/
theorem generators_no_validation :
    (∀ (p : ℚ) (g : Rng), simRandomWalk p (-1) g = some ([], g)) ∧
    (∀ u : ℚ, 0 ≤ u → u < 1 →
      ∃ path, simMarkovChain [[1, 1], [1, 1]] 0 1 [u] =
        some (path, []) ∧ path.length = 2) := by
  constructor
  · intro p g
    rw [simRandomWalk, if_pos (by norm_num)]
  · intro u h0 h1
    obtain ⟨tail, heq, hl, _, _, _⟩ :=
      markovLoop_spec [[1, 1], [1, 1]]
        (by norm_num) (by norm_num) 1 0 [u]
        (by norm_num)
        (by intro v hv; rcases List.mem_singleton.mp hv with rfl; exact ⟨h0, h1⟩)
        (by norm_num)
    refine ⟨0 :: tail, ?_, by simp [hl]⟩
    rw [simMarkovChain, heq]
    rfl

/-- Witness for the amended C2: a negative-step walk call and a
row-sum-2 Markov call both return normally. -/
theorem generators_no_validation_w :
    simRandomWalk (2/3) (-1) [5] = some ([], [5]) ∧
    (∃ path, simMarkovChain [[1, 1], [1, 1]] 0 1 [(1:ℚ)/2] =
      some (path, []) ∧ path.length = 2) :=
  ⟨generators_no_validation.1 (2/3) [5],
    generators_no_validation.2 (1/2) (by norm_num) (by norm_num)⟩

/-- Counterexample to C8: `simRandomWalk` draws from a file-scope `static`
engine, so a second call with identical parameters continues the ambient
stream rather than restarting it: with the static engine stream `[0, 3/4]`,
two `simRandomWalk(0.5, 1)` calls with identical parameters return the
different paths `[0, 1]` and `[0, -1]`. -/
theorem static_engine_second_call_differs :
    simRandomWalk (1/2) 1 [0, 3/4] = some ([0, 1], [3/4]) ∧
    simRandomWalk (1/2) 1 [3/4] = some ([0, -1], []) ∧
    ([0, 1] : List ℤ) ≠ [0, -1] := by
  refine ⟨?_, ?_, by simp⟩ <;> norm_num [simRandomWalk, walkLoop]

/-- C8 (amended): the three Poisson generators consume randomness only from
the `std::mt19937` the caller passes by reference (their embeddings are
functions of the explicit `rng` argument), but `simMarkovChain` and
`simRandomWalk` consume a file-scope static engine: for each there is an
ambient engine state for which two successive calls with identical
parameters return different paths, so their output is not reproducible from
the caller's arguments alone. -/
theorem static_engine_generators_not_reproducible :
    (∃ (g g₁ g₂ : Rng) (w₁ w₂ : List ℤ),
      simRandomWalk (1/2) 1 g = some (w₁, g₁) ∧
      simRandomWalk (1/2) 1 g₁ = some (w₂, g₂) ∧ w₁ ≠ w₂) ∧
    (∃ (h h₁ h₂ : Rng) (c₁ c₂ : List ℕ),
      simMarkovChain [[1/2, 1/2], [1/2, 1/2]] 0 1 h = some (c₁, h₁) ∧
      simMarkovChain [[1/2, 1/2], [1/2, 1/2]] 0 1 h₁ = some (c₂, h₂) ∧
      c₁ ≠ c₂) := by
  constructor
  · exact ⟨[0, 3/4], [3/4], [], [0, 1], [0, -1],
      by norm_num [simRandomWalk, walkLoop],
      by norm_num [simRandomWalk, walkLoop], by simp⟩
  · exact ⟨[0, 3/4], [3/4], [], [0, 0], [0, 1],
      by norm_num [simMarkovChain, markovLoop, discreteDraw, catPick],
      by norm_num [simMarkovChain, markovLoop, discreteDraw, catPick],
      by simp⟩

end StochasticSim
